import Mathlib

/-!
Verification of the CrusaderX multiplayer server (`src/server/server.mjs`).

The server keeps three insertion-ordered maps (`players`, `disconnectedPlayers`,
`playerLastSeen`), a per-shooter laser buffer, and fire-and-forget
`setTimeout` timers resetting the `recentlyHit` flag.  JavaScript `Map`s are
embedded as insertion-ordered association lists; JavaScript numbers are
embedded as exact rationals (for client-reported geometry) and integers
(for health, kills, wall-clock milliseconds).  `Math.sqrt` is embedded as
`Real.sqrt`; since the server only ever compares distances (`<` against the
threshold and against the running minimum) and `Real.sqrt` is monotone, the
executable handlers compare squared distances, with bridging lemmas relating
the two forms.
-/

namespace CrusaderX

/-- A 3D vector `{x, y, z}` with exact rational coordinates. -/
structure Vec3 where
  x : ℚ
  y : ℚ
  z : ℚ
deriving Repr, DecidableEq

/-- The squared point-to-segment distance computed by `pointLineDistance`
(`server.mjs` lines 45-81), before the final `Math.sqrt`: vector `AB` from
`lineStart` to `lineEnd`, vector `AP` from `lineStart` to `point`; if the
squared segment length `ab2` is zero return `|AP|^2`, otherwise project,
clamp the parameter `t` to `[0,1]`, and return the squared distance from
`point` to the closest point on the segment. -/
def pointLineDistSq (point lineStart lineEnd : Vec3) : ℚ :=
  let AB : Vec3 := ⟨lineEnd.x - lineStart.x, lineEnd.y - lineStart.y, lineEnd.z - lineStart.z⟩
  let AP : Vec3 := ⟨point.x - lineStart.x, point.y - lineStart.y, point.z - lineStart.z⟩
  let ab2 := AB.x * AB.x + AB.y * AB.y + AB.z * AB.z
  if ab2 = 0 then AP.x * AP.x + AP.y * AP.y + AP.z * AP.z
  else
    let t0 := (AP.x * AB.x + AP.y * AB.y + AP.z * AB.z) / ab2
    let t := max 0 (min 1 t0)
    let closestPoint : Vec3 :=
      ⟨lineStart.x + AB.x * t, lineStart.y + AB.y * t, lineStart.z + AB.z * t⟩
    let dx := point.x - closestPoint.x
    let dy := point.y - closestPoint.y
    let dz := point.z - closestPoint.z
    dx * dx + dy * dy + dz * dz

/-- The function `pointLineDistance` (`server.mjs` lines 45-81): both branches of the
source return `Math.sqrt` of the corresponding squared distance, so the
function is the square root of `pointLineDistSq`. -/
noncomputable def pointLineDistance (point lineStart lineEnd : Vec3) : ℝ :=
  Real.sqrt (pointLineDistSq point lineStart lineEnd)

/-- Plain Euclidean distance between two points, for stating geometry facts. -/
noncomputable def euclidDist (p q : Vec3) : ℝ :=
  Real.sqrt (((p.x - q.x) * (p.x - q.x) + (p.y - q.y) * (p.y - q.y)
    + (p.z - q.z) * (p.z - q.z) : ℚ))

/-! ### Association-list embedding of JavaScript `Map` -/

/-- Embedded `Map.get`: value at the first matching key. -/
def mget (l : List (String × α)) (k : String) : Option α :=
  match l with
  | [] => none
  | (k', v) :: rest => if k' = k then some v else mget rest k

/-- Embedded `Map.set`: replace in place if the key is present (JS `Map` keeps the
original insertion position), otherwise append at the end. -/
def mset (l : List (String × α)) (k : String) (v : α) : List (String × α) :=
  match l with
  | [] => [(k, v)]
  | (k', v') :: rest => if k' = k then (k, v) :: rest else (k', v') :: mset rest k v

/-- Embedded `Map.delete`: remove the entry with the given key. -/
def mdelete (l : List (String × α)) (k : String) : List (String × α) :=
  l.filter fun e => e.1 ≠ k

/-- Embedded `Map.has`. -/
def hasKey (l : List (String × α)) (k : String) : Bool :=
  (mget l k).isSome

theorem mget_mset_self (l : List (String × α)) (k : String) (v : α) :
    mget (mset l k v) k = some v := by
  induction l with
  | nil => simp [mget, mset]
  | cons e rest ih =>
    obtain ⟨k', v'⟩ := e
    by_cases h : k' = k <;> simp [mget, mset, h, ih]

theorem mget_mset_ne (l : List (String × α)) (k k' : String) (v : α) (h : k ≠ k') :
    mget (mset l k v) k' = mget l k' := by
  induction l with
  | nil => simp [mget, mset, h]
  | cons e rest ih =>
    obtain ⟨k₀, v₀⟩ := e
    by_cases h₀ : k₀ = k
    · subst h₀; simp [mget, mset, h]
    · simp only [mset, if_neg h₀, mget]
      by_cases h₁ : k₀ = k' <;> simp [h₁, ih]

theorem mget_mdelete_self (l : List (String × α)) (k : String) :
    mget (mdelete l k) k = none := by
  induction l with
  | nil => simp [mget, mdelete]
  | cons e rest ih =>
    obtain ⟨k₀, v₀⟩ := e
    by_cases h : k₀ = k
    · simpa [mdelete, h] using ih
    · simpa [mdelete, mget, h] using ih

theorem mget_mdelete_ne (l : List (String × α)) (k k' : String) (h : k ≠ k') :
    mget (mdelete l k) k' = mget l k' := by
  induction l with
  | nil => simp [mget, mdelete]
  | cons e rest ih =>
    obtain ⟨k₀, v₀⟩ := e
    by_cases h₀ : k₀ = k
    · have hne : k₀ ≠ k' := h₀ ▸ h
      have hdel : mdelete ((k₀, v₀) :: rest) k = mdelete rest k := by
        simp [mdelete, List.filter_cons, h₀]
      rw [hdel, ih, mget, if_neg hne]
    · have hdel : mdelete ((k₀, v₀) :: rest) k = (k₀, v₀) :: mdelete rest k := by
        simp [mdelete, List.filter_cons, h₀]
      rw [hdel]
      by_cases h₁ : k₀ = k'
      · simp [mget, h₁]
      · simp [mget, h₁, ih]

theorem mget_mem (l : List (String × α)) (k : String) (v : α)
    (h : mget l k = some v) : (k, v) ∈ l := by
  induction l with
  | nil => simp [mget] at h
  | cons e rest ih =>
    obtain ⟨k₀, v₀⟩ := e
    by_cases h₀ : k₀ = k
    · subst h₀; simp [mget] at h; simp [h]
    · simp only [mget, if_neg h₀] at h
      exact List.mem_cons_of_mem _ (ih h)

theorem mem_mset (l : List (String × α)) (k : String) (v : α) (e : String × α)
    (h : e ∈ mset l k v) : e = (k, v) ∨ e ∈ l := by
  induction l with
  | nil => simpa [mset] using h
  | cons e₀ rest ih =>
    obtain ⟨k₀, v₀⟩ := e₀
    by_cases h₀ : k₀ = k
    · simp only [mset, if_pos h₀] at h
      rcases List.mem_cons.mp h with h | h
      · exact Or.inl h
      · exact Or.inr (List.mem_cons_of_mem _ h)
    · simp only [mset, if_neg h₀] at h
      rcases List.mem_cons.mp h with h | h
      · exact Or.inr (by simp [h])
      · rcases ih h with h | h
        · exact Or.inl h
        · exact Or.inr (List.mem_cons_of_mem _ h)

theorem mem_mdelete (l : List (String × α)) (k : String) (e : String × α)
    (h : e ∈ mdelete l k) : e ∈ l :=
  List.mem_of_mem_filter h

theorem hasKey_mset_self (l : List (String × α)) (k : String) (v : α) :
    hasKey (mset l k v) k = true := by
  simp [hasKey, mget_mset_self]

theorem hasKey_mset_ne (l : List (String × α)) (k k' : String) (v : α) (h : k ≠ k') :
    hasKey (mset l k v) k' = hasKey l k' := by
  simp [hasKey, mget_mset_ne _ _ _ _ h]

theorem hasKey_mdelete_self (l : List (String × α)) (k : String) :
    hasKey (mdelete l k) k = false := by
  simp [hasKey, mget_mdelete_self]

theorem hasKey_mdelete_ne (l : List (String × α)) (k k' : String) (h : k ≠ k') :
    hasKey (mdelete l k) k' = hasKey l k' := by
  simp [hasKey, mget_mdelete_ne _ _ _ h]

/-! ### Data model -/

/-- One player record (`server.mjs` lines 151-161): id, client-reported
position/rotation/velocity, nickname, colorIndex, server-authoritative
health and kills, the transient `recentlyHit` flag (absent on creation,
embedded as `false`), and the last-update timestamp in milliseconds. -/
structure Player where
  id : String
  position : Vec3
  rotation : Vec3
  velocity : ℚ
  nickname : String
  colorIndex : ℤ
  health : ℤ
  kills : ℤ
  recentlyHit : Bool
  timestamp : ℤ
deriving Repr, DecidableEq

/-- Payload of a client `laserFire` message (`server.mjs` line 193):
`startPosition` / `endPosition` may be missing (the handler drops such
events), plus the client's `likelyHit` hint. -/
structure LaserData where
  startPosition : Option Vec3
  endPosition : Option Vec3
  likelyHit : Bool
deriving Repr, DecidableEq

/-- A buffered laser event: the incoming data tagged with `shooterId`
(`server.mjs` line 257). -/
structure TaggedLaser where
  data : LaserData
  shooterId : String
deriving Repr, DecidableEq

/-- Payload of a client `playerUpdate` message (`server.mjs` lines 283-334).
Optional fields model JavaScript presence checks; the source tests
`data.nickname` for truthiness, so an empty string behaves like absence
(handled in the operation itself). -/
structure UpdateData where
  position : Option Vec3
  rotation : Option Vec3
  velocity : Option ℚ
  nickname : Option String
  colorIndex : Option ℤ
  isRespawning : Bool
deriving Repr, DecidableEq

/-- Messages the server emits that the claims talk about. -/
inductive Msg where
  | playerLeft (id : String)
deriving Repr, DecidableEq

/-- The whole mutable server state: the three JavaScript `Map`s
(`players`, `disconnectedPlayers`, `playerLastSeen`), the per-shooter
`laserBuffer`, and the multiset of pending `setTimeout` callbacks that
reset `recentlyHit` (each entry is its fire time together with the
captured victim id, `server.mjs` lines 236-239). -/
structure ServerState where
  players : List (String × Player)
  disconnectedPlayers : List (String × Player)
  playerLastSeen : List (String × ℤ)
  laserBuffer : List (String × List TaggedLaser)
  pendingResets : List (ℤ × String)
deriving Repr, DecidableEq

/-- Startup state after `clearPlayerData()` (`server.mjs` lines 103-110). -/
def initState : ServerState :=
  { players := [], disconnectedPlayers := [], playerLastSeen := [],
    laserBuffer := [], pendingResets := [] }

/-- Configuration constants (`server.mjs` lines 29, 94, 200, 222, 239). -/
def PLAYER_TIMEOUT : ℤ := 10000

/-- Grace period for disconnected player data, 1 minute. -/
def DISCONNECTED_PLAYER_TIMEOUT : ℤ := 60000

/-! ### Server operations -/

/-- The fresh record created for an unknown connecting id
(`server.mjs` lines 151-161). -/
def freshPlayer (id : String) (now : ℤ) : Player :=
  { id := id
    position := ⟨0, 0, 0⟩
    rotation := ⟨0, 0, 0⟩
    velocity := 0
    nickname := "Unknown"
    colorIndex := 0
    health := 100
    kills := 0
    recentlyHit := false
    timestamp := now }

/-- Handler `io.onConnection` (`server.mjs` lines 137-166): if the id is in
`disconnectedPlayers` this is a reconnection — delete it there, refresh only
its `timestamp`, and put it back into `players`; otherwise create a fresh
record.  Either way refresh `playerLastSeen`.  The `playerJoined`
broadcasts do not touch server state and are elided. -/
def onConnection (id : String) (now : ℤ) (s : ServerState) : ServerState :=
  match mget s.disconnectedPlayers id with
  | some previousState =>
      { s with
        disconnectedPlayers := mdelete s.disconnectedPlayers id
        players := mset s.players id { previousState with timestamp := now }
        playerLastSeen := mset s.playerLastSeen id now }
  | none =>
      { s with
        players := mset s.players id (freshPlayer id now)
        playerLastSeen := mset s.playerLastSeen id now }

/-- The damage block of the `laserFire` handler once a closest player was
selected (`server.mjs` lines 217-239): decrement the victim's health by 5
floored at 0; on a >0 → 0 transition credit the shooter with a kill (when
the shooter is still registered) and reset the victim's kills to 0; set
`recentlyHit` and schedule a `setTimeout` resetting it 500 ms later. -/
def applyHit (shooterId closestPlayerId : String) (now : ℤ) (s : ServerState) : ServerState :=
  match mget s.players closestPlayerId with
  | none => s
  | some targetPlayer =>
    let oldHealth := targetPlayer.health
    let newHealth := max 0 (oldHealth - 5)
    let players1 :=
      if 0 < oldHealth ∧ newHealth = 0 then
        match mget s.players shooterId with
        | some shooter => mset s.players shooterId { shooter with kills := shooter.kills + 1 }
        | none => s.players
      else s.players
    let newTarget : Player :=
      { targetPlayer with
        health := newHealth
        kills := if 0 < oldHealth ∧ newHealth = 0 then 0 else targetPlayer.kills
        recentlyHit := true }
    { s with
      players := mset players1 closestPlayerId newTarget
      pendingResets := s.pendingResets ++ [(now + 500, closestPlayerId)] }

/-- One step of the closest-player scan (`server.mjs` lines 205-214): skip
the shooter and players with `health <= 0`; otherwise keep the candidate
when its squared distance beats the threshold (`10^2 = 100`) and the running
minimum.  The source compares `Math.sqrt` values against `10` and against
the running minimum (initially `Infinity`); comparing the squares is
equivalent since `Real.sqrt` is strictly monotone on nonnegatives
(lemmas `pointLineDistance_lt_ten_iff` and `scan` minimality below). -/
def scanStep (shooterId : String) (sp ep : Vec3)
    (acc : Option (String × ℚ)) (entry : String × Player) : Option (String × ℚ) :=
  if entry.1 = shooterId ∨ entry.2.health ≤ 0 then acc
  else
    let d2 := pointLineDistSq entry.2.position sp ep
    match acc with
    | none => if d2 < 100 then some (entry.1, d2) else none
    | some (cid, m) => if d2 < 100 ∧ d2 < m then some (entry.1, d2) else some (cid, m)

/-- The full scan over the active players in map order, returning the
closest eligible player within the hit threshold together with its squared
distance (`server.mjs` lines 201-214). -/
def scanClosest (shooterId : String) (sp ep : Vec3)
    (ps : List (String × Player)) : Option (String × ℚ) :=
  ps.foldl (scanStep shooterId sp ep) none

/-- Append the event to the shooter's laser buffer, keeping at most two
events per shooter per flush window (`server.mjs` lines 253-259). -/
def bufferLaser (id : String) (data : LaserData) (buf : List (String × List TaggedLaser)) :
    List (String × List TaggedLaser) :=
  let cur := (mget buf id).getD []
  if cur.length < 2 then mset buf id (cur ++ [⟨data, id⟩]) else buf

/-- The `laserFire` handler (`server.mjs` lines 193-260): drop events with a
missing start or end position; when `likelyHit` is set run the scan and, if
it selected a victim, apply the damage block; finally buffer the event for
broadcast regardless of the hit outcome. -/
def onLaserFire (id : String) (data : LaserData) (now : ℤ) (s : ServerState) : ServerState :=
  match data.startPosition, data.endPosition with
  | some sp, some ep =>
    let s1 :=
      if data.likelyHit then
        match scanClosest id sp ep s.players with
        | some (closestPlayerId, _) => applyHit id closestPlayerId now s
        | none => s
      else s
    { s1 with laserBuffer := bufferLaser id data s1.laserBuffer }
  | _, _ => s

/-- The `playerUpdate` handler (`server.mjs` lines 283-334): unknown ids are
dropped; otherwise refresh `playerLastSeen` and `timestamp`, then either
respawn (health 100, kills 0, position/rotation/nickname/colorIndex from the
patch) or apply a regular update (position, rotation, velocity, nickname,
colorIndex; health and kills never client-writable). -/
def onPlayerUpdate (id : String) (data : UpdateData) (now : ℤ) (s : ServerState) : ServerState :=
  match mget s.players id with
  | none => s
  | some player =>
    let player := { player with timestamp := now }
    let player :=
      if data.isRespawning then
        { player with
          health := 100
          kills := 0
          position := data.position.getD player.position
          rotation := data.rotation.getD player.rotation
          nickname := match data.nickname with
            | some n => if n = "" then player.nickname else n
            | none => player.nickname
          colorIndex := data.colorIndex.getD player.colorIndex }
      else
        { player with
          position := data.position.getD player.position
          rotation := data.rotation.getD player.rotation
          velocity := data.velocity.getD player.velocity
          nickname := match data.nickname with
            | some n => if n = "" then player.nickname else n
            | none => player.nickname
          colorIndex := data.colorIndex.getD player.colorIndex }
    { s with
      playerLastSeen := mset s.playerLastSeen id now
      players := mset s.players id player }

/-- Handler `channel.onDisconnect` (`server.mjs` lines 263-278): if the id is still
active, copy its record (timestamp untouched) into `disconnectedPlayers`;
then remove it from `players` and `playerLastSeen` and emit
`playerLeft {id}`. -/
def onDisconnect (id : String) (s : ServerState) : ServerState × List Msg :=
  let s1 :=
    match mget s.players id with
    | some playerData => { s with disconnectedPlayers := mset s.disconnectedPlayers id playerData }
    | none => s
  ({ s1 with
      players := mdelete s1.players id
      playerLastSeen := mdelete s1.playerLastSeen id },
   [Msg.playerLeft id])

/-- First half of the 5-second sweeper (`server.mjs` lines 344-350): purge
every disconnected record whose stored `timestamp` is more than
`DISCONNECTED_PLAYER_TIMEOUT` ms old. -/
def sweepDisconnected (now : ℤ) (dps : List (String × Player)) : List (String × Player) :=
  dps.filter fun e => ¬ (now - e.2.timestamp > DISCONNECTED_PLAYER_TIMEOUT)

/-- Second half of the sweeper (`server.mjs` lines 353-368): every id whose
`playerLastSeen` entry is more than `PLAYER_TIMEOUT` ms old is moved to
`disconnectedPlayers` (when still active) and removed from both `players`
and `playerLastSeen`, emitting `playerLeft {id}`. -/
def sweepTimeouts (now : ℤ) (s : ServerState) : ServerState × List Msg :=
  s.playerLastSeen.foldl
    (fun acc e =>
      if now - e.2 > PLAYER_TIMEOUT then
        let st := acc.1
        let st1 :=
          match mget st.players e.1 with
          | some playerData =>
              { st with disconnectedPlayers := mset st.disconnectedPlayers e.1 playerData }
          | none => st
        ({ st1 with
            players := mdelete st1.players e.1
            playerLastSeen := mdelete st1.playerLastSeen e.1 },
         acc.2 ++ [Msg.playerLeft e.1])
      else acc)
    (s, [])

/-- The whole periodic sweep (`server.mjs` lines 340-369). -/
def sweep (now : ℤ) (s : ServerState) : ServerState × List Msg :=
  sweepTimeouts now { s with disconnectedPlayers := sweepDisconnected now s.disconnectedPlayers }

/-- The callback of one `recentlyHit` reset `setTimeout`
(`server.mjs` lines 236-239): look the captured victim id up again and, if
still (or again) registered, clear the flag; the pending entry is consumed. -/
def fireResetTimer (t : ℤ) (victimId : String) (s : ServerState) : ServerState :=
  { s with
    players :=
      match mget s.players victimId with
      | some currentTarget => mset s.players victimId { currentTarget with recentlyHit := false }
      | none => s.players
    pendingResets := s.pendingResets.erase (t, victimId) }

/-- Clearing of the laser buffer by the 100 ms broadcast interval
(`server.mjs` lines 391-413); the emitted `laserFires` message does not
change player state. -/
def flushLasers (s : ServerState) : ServerState :=
  { s with laserBuffer := [] }

/-! ### Event-trace semantics -/

/-- The externally triggered events that mutate server state.  A
`timerFire` only has an effect when the timer is actually pending and its
fire time has been reached. -/
inductive Event where
  | connect (id : String) (now : ℤ)
  | disconnect (id : String)
  | update (id : String) (data : UpdateData) (now : ℤ)
  | laserFire (id : String) (data : LaserData) (now : ℤ)
  | sweepTick (now : ℤ)
  | timerFire (t : ℤ) (id : String) (now : ℤ)
  | laserTick
deriving Repr, DecidableEq

/-- One step of the single-threaded event loop. -/
def applyEvent (e : Event) (s : ServerState) : ServerState :=
  match e with
  | .connect id now => onConnection id now s
  | .disconnect id => (onDisconnect id s).1
  | .update id data now => onPlayerUpdate id data now s
  | .laserFire id data now => onLaserFire id data now s
  | .sweepTick now => (sweep now s).1
  | .timerFire t id now =>
      if (t, id) ∈ s.pendingResets ∧ t ≤ now then fireResetTimer t id s else s
  | .laserTick => flushLasers s

/-- The state reached from startup after a sequence of events. -/
def run (evs : List Event) : ServerState :=
  evs.foldl (fun s e => applyEvent e s) initState

/-! ### Geometry lemmas -/

/-- The squared distance from `point` to the point of parameter `t` on the
segment from `lineStart` to `lineEnd` (over ℝ, for arbitrary real `t`). -/
noncomputable def distToSegPointSq (point lineStart lineEnd : Vec3) (t : ℝ) : ℝ :=
  ((point.x : ℝ) - ((lineStart.x : ℝ) + ((lineEnd.x : ℝ) - (lineStart.x : ℝ)) * t)) ^ 2
    + ((point.y : ℝ) - ((lineStart.y : ℝ) + ((lineEnd.y : ℝ) - (lineStart.y : ℝ)) * t)) ^ 2
    + ((point.z : ℝ) - ((lineStart.z : ℝ) + ((lineEnd.z : ℝ) - (lineStart.z : ℝ)) * t)) ^ 2

/-- The distance from `point` to the point of parameter `t` on the segment. -/
noncomputable def distToSegPoint (point lineStart lineEnd : Vec3) (t : ℝ) : ℝ :=
  Real.sqrt (distToSegPointSq point lineStart lineEnd t)

/-- Scalar shorthand: the squared segment length `ab2` of the source. -/
def segLenSq (a b : Vec3) : ℚ :=
  (b.x - a.x) * (b.x - a.x) + (b.y - a.y) * (b.y - a.y) + (b.z - a.z) * (b.z - a.z)

/-- Scalar shorthand: the dot product of `AP` and `AB` of the source. -/
def apDot (p a b : Vec3) : ℚ :=
  (p.x - a.x) * (b.x - a.x) + (p.y - a.y) * (b.y - a.y) + (p.z - a.z) * (b.z - a.z)

/-- Scalar shorthand: the squared length of `AP`. -/
def apLenSq (p a : Vec3) : ℚ :=
  (p.x - a.x) * (p.x - a.x) + (p.y - a.y) * (p.y - a.y) + (p.z - a.z) * (p.z - a.z)

/-- The clamped projection parameter `t` of the source. -/
def clampParam (p a b : Vec3) : ℚ :=
  max 0 (min 1 (apDot p a b / segLenSq a b))

theorem distToSegPointSq_nonneg (p a b : Vec3) (t : ℝ) :
    0 ≤ distToSegPointSq p a b t := by
  unfold distToSegPointSq
  positivity

theorem pointLineDistSq_nonneg (p a b : Vec3) : 0 ≤ pointLineDistSq p a b := by
  simp only [pointLineDistSq]
  split <;>
    exact add_nonneg (add_nonneg (mul_self_nonneg _) (mul_self_nonneg _)) (mul_self_nonneg _)

/-- Over the reals the clamped quadratic parameter minimises
`u2 * t ^ 2 - 2 * d * t` over `t ∈ [0, 1]` when `u2 > 0`. -/
theorem clamp_quadratic_min (u2 d : ℝ) (hu : 0 < u2) (t : ℝ)
    (h0 : 0 ≤ t) (h1 : t ≤ 1) :
    u2 * max 0 (min 1 (d / u2)) ^ 2 - 2 * d * max 0 (min 1 (d / u2))
      ≤ u2 * t ^ 2 - 2 * d * t := by
  rcases le_or_lt (d / u2) 0 with hd | hd
  · have hmin : min 1 (d / u2) = d / u2 := min_eq_right (hd.trans zero_le_one)
    have hmax : max 0 (d / u2) = 0 := max_eq_left hd
    rw [hmin, hmax]
    have hdle : d ≤ 0 := by
      by_contra hpos
      push_neg at hpos
      have : 0 < d / u2 := div_pos hpos hu
      linarith
    nlinarith [mul_nonneg (mul_nonneg hu.le h0) h0, mul_nonneg (neg_nonneg.mpr hdle) h0]
  · rcases le_or_lt 1 (d / u2) with hd1 | hd1
    · have hmin : min 1 (d / u2) = 1 := min_eq_left hd1
      have hmax : max 0 (1 : ℝ) = 1 := max_eq_right zero_le_one
      rw [hmin, hmax]
      have hdu : u2 ≤ d := by
        have := (le_div_iff₀ hu).mp hd1
        linarith
      nlinarith [mul_nonneg (sub_nonneg.mpr h1) (sub_nonneg.mpr h1)]
    · have hmin : min 1 (d / u2) = d / u2 := min_eq_right hd1.le
      have hmax : max 0 (d / u2) = d / u2 := max_eq_right hd.le
      rw [hmin, hmax]
      have key : 0 ≤ u2 * (t - d / u2) ^ 2 := by positivity
      have expand : u2 * (t - d / u2) ^ 2
          = u2 * t ^ 2 - 2 * d * t - (u2 * (d / u2) ^ 2 - 2 * d * (d / u2)) := by
        field_simp
        ring
      linarith [expand ▸ key]

/-- Unfolding `pointLineDistSq` in the non-degenerate case: it is the value
of the quadratic `ap2 - 2 * d * s + u2 * s ^ 2` at the clamped parameter. -/
theorem pointLineDistSq_eq_quadratic (p a b : Vec3) (hab : segLenSq a b ≠ 0) :
    pointLineDistSq p a b =
      apLenSq p a - 2 * apDot p a b * clampParam p a b
        + segLenSq a b * clampParam p a b ^ 2 := by
  have hab' : ¬ ((b.x - a.x) * (b.x - a.x) + (b.y - a.y) * (b.y - a.y)
      + (b.z - a.z) * (b.z - a.z) = 0) := by
    simpa [segLenSq] using hab
  simp only [pointLineDistSq, apLenSq, apDot, clampParam, segLenSq, if_neg hab']
  ring

/-- Unfolding `pointLineDistSq` in the degenerate case. -/
theorem pointLineDistSq_degenerate_eq (p a b : Vec3) (hab : segLenSq a b = 0) :
    pointLineDistSq p a b = apLenSq p a := by
  have hab' : (b.x - a.x) * (b.x - a.x) + (b.y - a.y) * (b.y - a.y)
      + (b.z - a.z) * (b.z - a.z) = 0 := by
    simpa [segLenSq] using hab
  simp only [pointLineDistSq, apLenSq, if_pos hab']

/-- A zero sum of squares forces every component to vanish. -/
theorem sq_sum_zero_components (u v w : ℚ) (h : u * u + v * v + w * w = 0) :
    u = 0 ∧ v = 0 ∧ w = 0 := by
  refine ⟨?_, ?_, ?_⟩ <;> nlinarith [sq_nonneg u, sq_nonneg v, sq_nonneg w, sq_nonneg (u + v)]

theorem segLenSq_nonneg (a b : Vec3) : 0 ≤ segLenSq a b := by
  unfold segLenSq
  nlinarith [sq_nonneg (b.x - a.x), sq_nonneg (b.y - a.y), sq_nonneg (b.z - a.z)]

theorem clampParam_nonneg (p a b : Vec3) : 0 ≤ clampParam p a b :=
  le_max_left 0 _

theorem clampParam_le_one (p a b : Vec3) : clampParam p a b ≤ 1 :=
  max_le zero_le_one (min_le_left _ _)

/-- The squared point-to-segment distance is a lower bound for the squared
distance to any point of the segment. -/
theorem pointLineDistSq_le (p a b : Vec3) (t : ℝ) (h0 : 0 ≤ t) (h1 : t ≤ 1) :
    (pointLineDistSq p a b : ℝ) ≤ distToSegPointSq p a b t := by
  by_cases hab : segLenSq a b = 0
  · have hab' : (b.x - a.x) * (b.x - a.x) + (b.y - a.y) * (b.y - a.y)
        + (b.z - a.z) * (b.z - a.z) = 0 := by
      simpa [segLenSq] using hab
    obtain ⟨hx, hy, hz⟩ := sq_sum_zero_components _ _ _ hab'
    have hx' : (b.x : ℝ) = a.x := by exact_mod_cast sub_eq_zero.mp hx
    have hy' : (b.y : ℝ) = a.y := by exact_mod_cast sub_eq_zero.mp hy
    have hz' : (b.z : ℝ) = a.z := by exact_mod_cast sub_eq_zero.mp hz
    apply le_of_eq
    rw [pointLineDistSq_degenerate_eq p a b hab]
    unfold distToSegPointSq apLenSq
    rw [hx', hy', hz']
    push_cast
    ring
  · rw [pointLineDistSq_eq_quadratic p a b hab]
    have hu2pos : (0 : ℝ) < (segLenSq a b : ℝ) := by
      exact_mod_cast lt_of_le_of_ne (segLenSq_nonneg a b) (Ne.symm hab)
    have hmin := clamp_quadratic_min (segLenSq a b : ℝ) (apDot p a b : ℝ) hu2pos t h0 h1
    have hcast : ((clampParam p a b : ℚ) : ℝ)
        = max 0 (min 1 ((apDot p a b : ℝ) / (segLenSq a b : ℝ))) := by
      unfold clampParam
      push_cast
      norm_num
    have expand : distToSegPointSq p a b t
        = ((apLenSq p a : ℚ) : ℝ)
          + ((segLenSq a b : ℝ) * t ^ 2 - 2 * (apDot p a b : ℝ) * t) := by
      unfold distToSegPointSq apLenSq segLenSq apDot
      push_cast
      ring
    rw [expand]
    push_cast [hcast]
    linarith [hmin]

/-- The squared point-to-segment distance is attained at the clamped
parameter (which lies in `[0, 1]`). -/
theorem pointLineDistSq_attained (p a b : Vec3) :
    ∃ t : ℝ, 0 ≤ t ∧ t ≤ 1 ∧ (pointLineDistSq p a b : ℝ) = distToSegPointSq p a b t := by
  by_cases hab : segLenSq a b = 0
  · refine ⟨0, le_refl 0, zero_le_one, ?_⟩
    rw [pointLineDistSq_degenerate_eq p a b hab]
    unfold distToSegPointSq apLenSq
    push_cast
    ring
  · refine ⟨(clampParam p a b : ℝ), by exact_mod_cast clampParam_nonneg p a b,
      by exact_mod_cast clampParam_le_one p a b, ?_⟩
    rw [pointLineDistSq_eq_quadratic p a b hab]
    unfold distToSegPointSq apLenSq segLenSq apDot clampParam
    push_cast
    ring

/-- The hit-threshold comparison on true distances is the comparison of the
squared distance against `10 ^ 2 = 100` used by the executable scan. -/
theorem pointLineDistance_lt_ten_iff (p a b : Vec3) :
    pointLineDistance p a b < 10 ↔ pointLineDistSq p a b < 100 := by
  unfold pointLineDistance
  rw [Real.sqrt_lt' (by norm_num : (0 : ℝ) < 10)]
  constructor
  · intro h
    have : (pointLineDistSq p a b : ℝ) < 100 := by norm_num at h ⊢; exact h
    exact_mod_cast this
  · intro h
    have : (pointLineDistSq p a b : ℝ) < 100 := by exact_mod_cast h
    norm_num
    exact this

/-- Comparing two point-to-segment distances is comparing the squares. -/
theorem pointLineDistance_le_of_sq_le (p a b p' : Vec3)
    (h : pointLineDistSq p a b ≤ pointLineDistSq p' a b) :
    pointLineDistance p a b ≤ pointLineDistance p' a b := by
  unfold pointLineDistance
  exact Real.sqrt_le_sqrt (by exact_mod_cast h)

/-! ### Claim C5: segment distance, not infinite-line distance -/

/-- C5: `pointLineDistance` returns the minimum Euclidean distance from the
point to the closest point on the finite segment (the projection parameter
is clamped to `[0,1]`), not the distance to the infinite line: it is a
lower bound on the distance to every segment point and is attained at one
of them; and for `P = (0,0,0)` with the segment from `(1,0,0)` to `(2,0,0)`
it returns exactly `1` (the infinite-line distance there would be `0`). -/
theorem pointLineDistance_min_over_segment :
    (∀ (p a b : Vec3) (t : ℝ), 0 ≤ t → t ≤ 1 →
        pointLineDistance p a b ≤ distToSegPoint p a b t) ∧
    (∀ p a b : Vec3, ∃ t : ℝ, 0 ≤ t ∧ t ≤ 1 ∧
        pointLineDistance p a b = distToSegPoint p a b t) ∧
    pointLineDistance ⟨0, 0, 0⟩ ⟨1, 0, 0⟩ ⟨2, 0, 0⟩ = 1 := by
  refine ⟨?_, ?_, ?_⟩
  · intro p a b t h0 h1
    exact Real.sqrt_le_sqrt (pointLineDistSq_le p a b t h0 h1)
  · intro p a b
    obtain ⟨t, h0, h1, heq⟩ := pointLineDistSq_attained p a b
    exact ⟨t, h0, h1, by unfold pointLineDistance distToSegPoint; rw [heq]⟩
  · have h1 : pointLineDistSq ⟨0, 0, 0⟩ ⟨1, 0, 0⟩ ⟨2, 0, 0⟩ = 1 := by
      norm_num [pointLineDistSq]
    unfold pointLineDistance
    rw [h1]
    norm_num [Real.sqrt_one]

/-- Witness for C5 at a concrete segment point. -/
theorem pointLineDistance_min_over_segment_witness :
    pointLineDistance ⟨0, 0, 0⟩ ⟨1, 0, 0⟩ ⟨2, 0, 0⟩
      ≤ distToSegPoint ⟨0, 0, 0⟩ ⟨1, 0, 0⟩ ⟨2, 0, 0⟩ (1 / 2) :=
  pointLineDistance_min_over_segment.1 _ _ _ (1 / 2) (by norm_num) (by norm_num)

/-! ### Claim C9: degenerate segment, guarded division -/

/-- C9: for a degenerate segment (squared length `ab2 = 0`, i.e. start and
end coincide), the guard in `pointLineDistance` returns the plain Euclidean
distance from the point to the shared endpoint; the embedded function is
total, so no division by zero can occur on any input. -/
theorem pointLineDistance_degenerate (p a b : Vec3) (hab : segLenSq a b = 0) :
    pointLineDistance p a b = euclidDist p a := by
  unfold pointLineDistance euclidDist
  rw [pointLineDistSq_degenerate_eq p a b hab]
  rfl

/-- Witness for C9: a concrete degenerate segment. -/
theorem pointLineDistance_degenerate_witness :
    segLenSq ⟨5, 6, 7⟩ ⟨5, 6, 7⟩ = 0 ∧
    pointLineDistance ⟨3, 4, 0⟩ ⟨5, 6, 7⟩ ⟨5, 6, 7⟩ = euclidDist ⟨3, 4, 0⟩ ⟨5, 6, 7⟩ :=
  ⟨by norm_num [segLenSq],
   pointLineDistance_degenerate ⟨3, 4, 0⟩ ⟨5, 6, 7⟩ ⟨5, 6, 7⟩ (by norm_num [segLenSq])⟩

/-! ### Claim C6: reconnection restores the stored record -/

/-- C6: when the connecting id is present in the disconnected registry,
`onConnection` restores the stored record into the active registry with only
the timestamp refreshed (health and kills in particular are unchanged), and
removes it from the disconnected registry, instead of creating a fresh
default record. -/
theorem onConnection_restores (id : String) (now : ℤ) (s : ServerState) (prev : Player)
    (h : mget s.disconnectedPlayers id = some prev) :
    mget (onConnection id now s).players id = some { prev with timestamp := now } ∧
    mget (onConnection id now s).disconnectedPlayers id = none ∧
    ({ prev with timestamp := now } : Player).health = prev.health ∧
    ({ prev with timestamp := now } : Player).kills = prev.kills := by
  simp [onConnection, h, mget_mset_self, mget_mdelete_self]

/-- Witness for C6: a player who disconnected with health 40 and kills 3
reconnects and keeps health 40 and kills 3. -/
theorem onConnection_restores_witness :
    (mget (onConnection "a" 9000
        { initState with disconnectedPlayers :=
            [("a", { id := "a", position := ⟨0, 0, 0⟩, rotation := ⟨0, 0, 0⟩, velocity := 0,
                     nickname := "Ace", colorIndex := 2, health := 40, kills := 3,
                     recentlyHit := false, timestamp := 100 })] }).players "a").map Player.health
      = some 40 ∧
    (mget (onConnection "a" 9000
        { initState with disconnectedPlayers :=
            [("a", { id := "a", position := ⟨0, 0, 0⟩, rotation := ⟨0, 0, 0⟩, velocity := 0,
                     nickname := "Ace", colorIndex := 2, health := 40, kills := 3,
                     recentlyHit := false, timestamp := 100 })] }).players "a").map Player.kills
      = some 3 := by
  have h := onConnection_restores "a" 9000
    { initState with disconnectedPlayers :=
        [("a", { id := "a", position := ⟨0, 0, 0⟩, rotation := ⟨0, 0, 0⟩, velocity := 0,
                 nickname := "Ace", colorIndex := 2, health := 40, kills := 3,
                 recentlyHit := false, timestamp := 100 })] }
    { id := "a", position := ⟨0, 0, 0⟩, rotation := ⟨0, 0, 0⟩, velocity := 0,
      nickname := "Ace", colorIndex := 2, health := 40, kills := 3,
      recentlyHit := false, timestamp := 100 }
    (by simp [initState, mget])
  rw [h.1]
  exact ⟨rfl, rfl⟩

/-! ### Claim C2: kill coupling -/

/-- C2: in the hit-handling step, if the victim's health crosses from `> 0`
to exactly `0` the shooter's kills increase by exactly 1 and the victim's
kills reset to exactly 0; a hit that leaves health above 0, or a hit on a
victim already at 0, changes neither kills counter. -/
theorem applyHit_kill_coupling (shooterId victimId : String) (now : ℤ) (s : ServerState)
    (target shooter : Player)
    (hvt : mget s.players victimId = some target)
    (hsh : mget s.players shooterId = some shooter)
    (hne : shooterId ≠ victimId) :
    (0 < target.health ∧ max 0 (target.health - 5) = 0 →
      mget (applyHit shooterId victimId now s).players shooterId
          = some { shooter with kills := shooter.kills + 1 } ∧
      mget (applyHit shooterId victimId now s).players victimId
          = some { target with health := 0, kills := 0, recentlyHit := true }) ∧
    (max 0 (target.health - 5) ≠ 0 →
      mget (applyHit shooterId victimId now s).players shooterId = some shooter ∧
      mget (applyHit shooterId victimId now s).players victimId
          = some { target with health := max 0 (target.health - 5), recentlyHit := true }) ∧
    (target.health ≤ 0 →
      mget (applyHit shooterId victimId now s).players shooterId = some shooter ∧
      mget (applyHit shooterId victimId now s).players victimId
          = some { target with health := 0, recentlyHit := true }) := by
  refine ⟨?_, ?_, ?_⟩
  · rintro ⟨h1, h2⟩
    simp only [applyHit, hvt, hsh, if_pos (And.intro h1 h2)]
    constructor
    · rw [mget_mset_ne _ _ _ _ (Ne.symm hne), mget_mset_self]
    · rw [mget_mset_self, h2]
  · intro hnz
    have hcond : ¬ (0 < target.health ∧ max 0 (target.health - 5) = 0) := by
      rintro ⟨_, h2⟩
      exact hnz h2
    simp only [applyHit, hvt, if_neg hcond]
    constructor
    · rw [mget_mset_ne _ _ _ _ (Ne.symm hne)]
      exact hsh
    · rw [mget_mset_self]
  · intro hle
    have hcond : ¬ (0 < target.health ∧ max 0 (target.health - 5) = 0) := by
      rintro ⟨h1, _⟩
      exact absurd hle (not_le.mpr h1)
    have hmax : max 0 (target.health - 5) = 0 := max_eq_left (by linarith)
    simp only [applyHit, hvt, if_neg hcond]
    constructor
    · rw [mget_mset_ne _ _ _ _ (Ne.symm hne)]
      exact hsh
    · rw [mget_mset_self, hmax]

/-- A shooter record used in concrete scenarios. -/
def shooterA : Player :=
  { id := "A", position := ⟨0, 0, 20⟩, rotation := ⟨0, 0, 0⟩, velocity := 0,
    nickname := "A", colorIndex := 0, health := 100, kills := 7,
    recentlyHit := false, timestamp := 0 }

/-- A victim record at 5 health used in concrete scenarios. -/
def victimB : Player :=
  { id := "B", position := ⟨0, 0, 0⟩, rotation := ⟨0, 0, 0⟩, velocity := 0,
    nickname := "B", colorIndex := 1, health := 5, kills := 4,
    recentlyHit := false, timestamp := 0 }

/-- A two-player state used in concrete scenarios. -/
def stateAB : ServerState :=
  { initState with
    players := [("A", shooterA), ("B", victimB)]
    playerLastSeen := [("A", 0), ("B", 0)] }

/-- Witness for C2: shooter A (7 kills) finishes victim B (5 health,
4 kills); afterwards A has 8 kills and B has 0 kills. -/
theorem applyHit_kill_coupling_witness :
    mget (applyHit "A" "B" 1000 stateAB).players "A"
        = some { shooterA with kills := shooterA.kills + 1 } ∧
    mget (applyHit "A" "B" 1000 stateAB).players "B"
        = some { victimB with health := 0, kills := 0, recentlyHit := true } := by
  have h := (applyHit_kill_coupling "A" "B" 1000 stateAB victimB shooterA
    (by decide) (by decide) (by decide)).1 (by decide)
  exact h

/-! ### Claim C1: health bounds in every reachable state -/

/-- The health bound of one record. -/
def healthOK (p : Player) : Prop := 0 ≤ p.health ∧ p.health ≤ 100

/-- The inductive invariant: every record in either registry satisfies the
health bound (the disconnected copy is needed because reconnection restores
records from there). -/
def HealthInv (s : ServerState) : Prop :=
  (∀ e ∈ s.players, healthOK e.2) ∧ ∀ e ∈ s.disconnectedPlayers, healthOK e.2

theorem healthInv_init : HealthInv initState := by
  constructor <;> intro e he <;> simp [initState] at he

/-- A fold preserves a predicate that every step on a list element preserves. -/
theorem foldl_preserves_mem {α β : Type _} (f : α → β → α) (P : α → Prop)
    (l : List β) (hf : ∀ a b, b ∈ l → P a → P (f a b)) :
    ∀ a, P a → P (l.foldl f a) := by
  induction l with
  | nil => intro a h; exact h
  | cons b rest ih =>
    intro a h
    exact ih (fun a' b' hb' h' => hf a' b' (List.mem_cons_of_mem _ hb') h') _
      (hf a b (List.mem_cons_self _ _) h)

theorem healthInv_onConnection (id : String) (now : ℤ) (s : ServerState)
    (h : HealthInv s) : HealthInv (onConnection id now s) := by
  obtain ⟨hp, hd⟩ := h
  cases hdp : mget s.disconnectedPlayers id with
  | some prev =>
    simp only [onConnection, hdp]
    constructor
    · intro e he
      rcases mem_mset _ _ _ _ he with rfl | he'
      · exact hd (id, prev) (mget_mem _ _ _ hdp)
      · exact hp _ he'
    · intro e he
      exact hd _ (mem_mdelete _ _ _ he)
  | none =>
    simp only [onConnection, hdp]
    constructor
    · intro e he
      rcases mem_mset _ _ _ _ he with rfl | he'
      · exact ⟨by norm_num [freshPlayer], by norm_num [freshPlayer]⟩
      · exact hp _ he'
    · exact hd

theorem healthInv_applyHit (sh v : String) (now : ℤ) (s : ServerState)
    (h : HealthInv s) : HealthInv (applyHit sh v now s) := by
  obtain ⟨hp, hd⟩ := h
  cases hvt : mget s.players v with
  | none => simpa [applyHit, hvt] using ⟨hp, hd⟩
  | some target =>
    simp only [applyHit, hvt]
    refine ⟨?_, hd⟩
    intro e he
    rcases mem_mset _ _ _ _ he with rfl | he1
    · have htar := hp _ (mget_mem _ _ _ hvt)
      exact ⟨le_max_left _ _, max_le (by norm_num) (by linarith [htar.2])⟩
    · by_cases hc : 0 < target.health ∧ max 0 (target.health - 5) = 0
      · rw [if_pos hc] at he1
        cases hsh : mget s.players sh with
        | none =>
          rw [hsh] at he1
          exact hp _ he1
        | some shooter =>
          rw [hsh] at he1
          rcases mem_mset _ _ _ _ he1 with rfl | he2
          · exact hp (sh, shooter) (mget_mem _ _ _ hsh)
          · exact hp _ he2
      · rw [if_neg hc] at he1
        exact hp _ he1

theorem healthInv_onLaserFire (id : String) (data : LaserData) (now : ℤ) (s : ServerState)
    (h : HealthInv s) : HealthInv (onLaserFire id data now s) := by
  cases hsp : data.startPosition with
  | none => simpa [onLaserFire, hsp] using h
  | some sp =>
    cases hep : data.endPosition with
    | none => simpa [onLaserFire, hsp, hep] using h
    | some ep =>
      have hbuf : ∀ s1 : ServerState, HealthInv s1 →
          HealthInv { s1 with laserBuffer := bufferLaser id data s1.laserBuffer } :=
        fun s1 hs1 => ⟨hs1.1, hs1.2⟩
      simp only [onLaserFire, hsp, hep]
      apply hbuf
      by_cases hl : data.likelyHit = true
      · rw [if_pos hl]
        cases hscan : scanClosest id sp ep s.players with
        | none => exact h
        | some pr =>
          obtain ⟨cid, d⟩ := pr
          exact healthInv_applyHit id cid now s h
      · rw [if_neg hl]
        exact h

theorem healthInv_onPlayerUpdate (id : String) (data : UpdateData) (now : ℤ) (s : ServerState)
    (h : HealthInv s) : HealthInv (onPlayerUpdate id data now s) := by
  obtain ⟨hp, hd⟩ := h
  cases hpl : mget s.players id with
  | none => simpa [onPlayerUpdate, hpl] using ⟨hp, hd⟩
  | some player =>
    simp only [onPlayerUpdate, hpl]
    refine ⟨?_, hd⟩
    intro e he
    rcases mem_mset _ _ _ _ he with rfl | he'
    · by_cases hr : data.isRespawning = true
      · rw [if_pos hr]
        exact ⟨by norm_num, by norm_num⟩
      · rw [if_neg hr]
        exact hp (id, player) (mget_mem _ _ _ hpl)
    · exact hp _ he'

theorem healthInv_onDisconnect (id : String) (s : ServerState)
    (h : HealthInv s) : HealthInv (onDisconnect id s).1 := by
  obtain ⟨hp, hd⟩ := h
  cases hpl : mget s.players id with
  | none =>
    simp only [onDisconnect, hpl]
    exact ⟨fun e he => hp _ (mem_mdelete _ _ _ he), hd⟩
  | some playerData =>
    simp only [onDisconnect, hpl]
    constructor
    · intro e he
      exact hp _ (mem_mdelete _ _ _ he)
    · intro e he
      rcases mem_mset _ _ _ _ he with rfl | he'
      · exact hp _ (mget_mem _ _ _ hpl)
      · exact hd _ he'

theorem healthInv_sweep (now : ℤ) (s : ServerState)
    (h : HealthInv s) : HealthInv (sweep now s).1 := by
  obtain ⟨hp, hd⟩ := h
  have h1 : HealthInv { s with disconnectedPlayers := sweepDisconnected now s.disconnectedPlayers } :=
    ⟨hp, fun e he => hd _ (List.mem_of_mem_filter he)⟩
  unfold sweep sweepTimeouts
  refine foldl_preserves_mem _ (fun acc : ServerState × List Msg => HealthInv acc.1) _ ?_ _ h1
  intro acc e _ hacc
  obtain ⟨hap, had⟩ := hacc
  by_cases hc : now - e.2 > PLAYER_TIMEOUT
  · simp only [if_pos hc]
    cases hpe : mget acc.1.players e.1 with
    | none =>
      simp only [hpe]
      exact ⟨fun x hx => hap _ (mem_mdelete _ _ _ hx), had⟩
    | some playerData =>
      simp only [hpe]
      constructor
      · intro x hx
        exact hap _ (mem_mdelete _ _ _ hx)
      · intro x hx
        rcases mem_mset _ _ _ _ hx with rfl | hx'
        · exact hap _ (mget_mem _ _ _ hpe)
        · exact had _ hx'
  · simp only [if_neg hc]
    exact ⟨hap, had⟩

theorem healthInv_fireResetTimer (t : ℤ) (v : String) (s : ServerState)
    (h : HealthInv s) : HealthInv (fireResetTimer t v s) := by
  obtain ⟨hp, hd⟩ := h
  cases hpl : mget s.players v with
  | none => simpa [fireResetTimer, hpl] using ⟨hp, hd⟩
  | some currentTarget =>
    simp only [fireResetTimer, hpl]
    refine ⟨?_, hd⟩
    intro e he
    rcases mem_mset _ _ _ _ he with rfl | he'
    · exact hp (v, currentTarget) (mget_mem _ _ _ hpl)
    · exact hp _ he'

theorem healthInv_applyEvent (e : Event) (s : ServerState)
    (h : HealthInv s) : HealthInv (applyEvent e s) := by
  cases e with
  | connect id now => exact healthInv_onConnection id now s h
  | disconnect id => exact healthInv_onDisconnect id s h
  | update id data now => exact healthInv_onPlayerUpdate id data now s h
  | laserFire id data now => exact healthInv_onLaserFire id data now s h
  | sweepTick now => exact healthInv_sweep now s h
  | timerFire t id now =>
    simp only [applyEvent]
    split
    · exact healthInv_fireResetTimer t id s h
    · exact h
  | laserTick => exact ⟨h.1, h.2⟩

theorem healthInv_run (evs : List Event) : HealthInv (run evs) :=
  foldl_preserves_mem _ (fun s => HealthInv s) evs
    (fun s e _ h => healthInv_applyEvent e s h) initState healthInv_init

/-- C1: in every state reachable by any sequence of connects, reconnects,
playerUpdates, respawns, laserFire hits, disconnects, sweeps and timer
firings, every active player's health lies in `[0, 100]`; moreover a hit
sets the victim's health to exactly `max 0 (health - 5)` (a decrement of 5
floored at 0), and creation and respawn set it to exactly 100. -/
theorem health_bound_reachable :
    (∀ (evs : List Event) (id : String) (p : Player),
        mget (run evs).players id = some p → 0 ≤ p.health ∧ p.health ≤ 100) ∧
    (∀ (id : String) (now : ℤ), (freshPlayer id now).health = 100) ∧
    (∀ (id : String) (data : UpdateData) (now : ℤ) (s : ServerState) (p p' : Player),
        data.isRespawning = true → mget s.players id = some p →
        mget (onPlayerUpdate id data now s).players id = some p' → p'.health = 100) ∧
    (∀ (sh v : String) (now : ℤ) (s : ServerState) (t t' : Player),
        mget s.players v = some t →
        mget (applyHit sh v now s).players v = some t' →
        t'.health = max 0 (t.health - 5)) := by
  refine ⟨?_, ?_, ?_, ?_⟩
  · intro evs id p hmem
    exact (healthInv_run evs).1 (id, p) (mget_mem _ _ _ hmem)
  · intro id now
    rfl
  · intro id data now s p p' hr hp hp'
    simp only [onPlayerUpdate, hp, if_pos hr, mget_mset_self] at hp'
    cases hp'
    rfl
  · intro sh v now s t t' ht ht'
    simp only [applyHit, ht, mget_mset_self] at ht'
    cases ht'
    rfl

/-- Witness for C1: a freshly connected player in a concrete reachable
state has health in bounds. -/
theorem health_bound_reachable_witness :
    0 ≤ (freshPlayer "A" 0).health ∧ (freshPlayer "A" 0).health ≤ 100 :=
  health_bound_reachable.1 [Event.connect "A" 0] "A" (freshPlayer "A" 0) (by decide)

/-! ### Claim C3: active and disconnected registries are disjoint -/

theorem hasKey_of_mem (l : List (String × α)) (k : String) (v : α)
    (h : (k, v) ∈ l) : hasKey l k = true := by
  induction l with
  | nil => simp at h
  | cons e rest ih =>
    obtain ⟨k₀, v₀⟩ := e
    by_cases h₀ : k₀ = k
    · simp [hasKey, mget, h₀]
    · rcases List.mem_cons.mp h with h | h
      · exact absurd (congrArg Prod.fst h).symm h₀
      · simpa [hasKey, mget, h₀] using ih h

theorem hasKey_filter_false (l : List (String × α)) (P : String × α → Bool) (k : String)
    (h : hasKey l k = false) : hasKey (l.filter P) k = false := by
  by_contra hc
  rw [Bool.not_eq_false, hasKey, Option.isSome_iff_exists] at hc
  obtain ⟨v, hv⟩ := hc
  have := hasKey_of_mem l k v (List.mem_of_mem_filter (mget_mem _ _ _ hv))
  rw [this] at h
  simp at h

/-- Setting a key that is already present never changes which keys exist. -/
theorem hasKey_mset_present (l : List (String × α)) (k : String) (v : α)
    (h : hasKey l k = true) (id : String) : hasKey (mset l k v) id = hasKey l id := by
  by_cases hk : k = id
  · subst hk
    rw [hasKey_mset_self, h]
  · exact hasKey_mset_ne _ _ _ _ hk

/-- The damage block never changes which ids are active. -/
theorem applyHit_players_keys (sh v : String) (now : ℤ) (s : ServerState) (id' : String) :
    hasKey (applyHit sh v now s).players id' = hasKey s.players id' := by
  cases hvt : mget s.players v with
  | none => simp [applyHit, hvt]
  | some target =>
    have hv : hasKey s.players v = true := by simp [hasKey, hvt]
    by_cases hc : 0 < target.health ∧ max 0 (target.health - 5) = 0
    · cases hsh : mget s.players sh with
      | none =>
        simp only [applyHit, hvt, hsh, if_pos hc]
        rw [hasKey_mset_present _ _ _ hv]
      | some shooter =>
        have hs : hasKey s.players sh = true := by simp [hasKey, hsh]
        simp only [applyHit, hvt, hsh, if_pos hc]
        rw [hasKey_mset_present _ _ _ (by rwa [hasKey_mset_present _ _ _ hs]),
          hasKey_mset_present _ _ _ hs]
    · simp only [applyHit, hvt, if_neg hc]
      rw [hasKey_mset_present _ _ _ hv]

/-- The damage block does not touch the disconnected registry. -/
theorem applyHit_disconnected_eq (sh v : String) (now : ℤ) (s : ServerState) :
    (applyHit sh v now s).disconnectedPlayers = s.disconnectedPlayers := by
  cases hvt : mget s.players v <;> simp [applyHit, hvt]

/-- The damage block does not touch the last-seen map. -/
theorem applyHit_lastSeen_eq (sh v : String) (now : ℤ) (s : ServerState) :
    (applyHit sh v now s).playerLastSeen = s.playerLastSeen := by
  cases hvt : mget s.players v <;> simp [applyHit, hvt]

/-- The registry-disjointness invariant of the claim. -/
def DisjInv (s : ServerState) : Prop :=
  ∀ id, hasKey s.players id = true → hasKey s.disconnectedPlayers id = false

theorem disjInv_init : DisjInv initState := by
  intro id h
  simp [initState, hasKey, mget] at h

theorem disjInv_onConnection (id : String) (now : ℤ) (s : ServerState)
    (h : DisjInv s) : DisjInv (onConnection id now s) := by
  cases hdp : mget s.disconnectedPlayers id with
  | some prev =>
    simp only [onConnection, hdp]
    intro id' hp'
    by_cases hi : id = id'
    · subst hi
      exact hasKey_mdelete_self _ _
    · rw [hasKey_mdelete_ne _ _ _ hi]
      rw [hasKey_mset_ne _ _ _ _ hi] at hp'
      exact h id' hp'
  | none =>
    simp only [onConnection, hdp]
    intro id' hp'
    by_cases hi : id = id'
    · subst hi
      simp [hasKey, hdp]
    · rw [hasKey_mset_ne _ _ _ _ hi] at hp'
      exact h id' hp'

theorem disjInv_applyHit (sh v : String) (now : ℤ) (s : ServerState)
    (h : DisjInv s) : DisjInv (applyHit sh v now s) := by
  intro id' hp'
  rw [applyHit_players_keys] at hp'
  rw [applyHit_disconnected_eq]
  exact h id' hp'

theorem disjInv_onLaserFire (id : String) (data : LaserData) (now : ℤ) (s : ServerState)
    (h : DisjInv s) : DisjInv (onLaserFire id data now s) := by
  cases hsp : data.startPosition with
  | none => simpa [onLaserFire, hsp] using h
  | some sp =>
    cases hep : data.endPosition with
    | none => simpa [onLaserFire, hsp, hep] using h
    | some ep =>
      have hbuf : ∀ s1 : ServerState, DisjInv s1 →
          DisjInv { s1 with laserBuffer := bufferLaser id data s1.laserBuffer } :=
        fun s1 hs1 => hs1
      simp only [onLaserFire, hsp, hep]
      apply hbuf
      by_cases hl : data.likelyHit = true
      · rw [if_pos hl]
        cases hscan : scanClosest id sp ep s.players with
        | none => exact h
        | some pr =>
          obtain ⟨cid, d⟩ := pr
          exact disjInv_applyHit id cid now s h
      · rw [if_neg hl]
        exact h

theorem disjInv_onPlayerUpdate (id : String) (data : UpdateData) (now : ℤ) (s : ServerState)
    (h : DisjInv s) : DisjInv (onPlayerUpdate id data now s) := by
  cases hpl : mget s.players id with
  | none => simpa [onPlayerUpdate, hpl] using h
  | some player =>
    simp only [onPlayerUpdate, hpl]
    intro id' hp'
    apply h id'
    have hi : hasKey s.players id = true := by simp [hasKey, hpl]
    rwa [hasKey_mset_present _ _ _ hi] at hp'

theorem disjInv_onDisconnect (id : String) (s : ServerState)
    (h : DisjInv s) : DisjInv (onDisconnect id s).1 := by
  cases hpl : mget s.players id with
  | none =>
    simp only [onDisconnect, hpl]
    intro id' hp'
    by_cases hi : id = id'
    · subst hi
      rw [hasKey_mdelete_self] at hp'
      exact absurd hp' (by simp)
    · rw [hasKey_mdelete_ne _ _ _ hi] at hp'
      exact h id' hp'
  | some playerData =>
    simp only [onDisconnect, hpl]
    intro id' hp'
    by_cases hi : id = id'
    · subst hi
      rw [hasKey_mdelete_self] at hp'
      exact absurd hp' (by simp)
    · rw [hasKey_mdelete_ne _ _ _ hi] at hp'
      rw [hasKey_mset_ne _ _ _ _ hi]
      exact h id' hp'

theorem disjInv_sweep (now : ℤ) (s : ServerState)
    (h : DisjInv s) : DisjInv (sweep now s).1 := by
  have h1 : DisjInv { s with disconnectedPlayers := sweepDisconnected now s.disconnectedPlayers } := by
    intro id hp'
    exact hasKey_filter_false _ _ _ (h id hp')
  unfold sweep sweepTimeouts
  refine foldl_preserves_mem _ (fun acc : ServerState × List Msg => DisjInv acc.1) _ ?_ _ h1
  intro acc e _ hacc
  by_cases hc : now - e.2 > PLAYER_TIMEOUT
  · simp only [if_pos hc]
    cases hpe : mget acc.1.players e.1 with
    | none =>
      simp only [hpe]
      intro id' hp'
      by_cases hi : e.1 = id'
      · subst hi
        rw [hasKey_mdelete_self] at hp'
        exact absurd hp' (by simp)
      · rw [hasKey_mdelete_ne _ _ _ hi] at hp'
        exact hacc id' hp'
    | some playerData =>
      simp only [hpe]
      intro id' hp'
      by_cases hi : e.1 = id'
      · subst hi
        rw [hasKey_mdelete_self] at hp'
        exact absurd hp' (by simp)
      · rw [hasKey_mdelete_ne _ _ _ hi] at hp'
        rw [hasKey_mset_ne _ _ _ _ hi]
        exact hacc id' hp'
  · simp only [if_neg hc]
    exact hacc

theorem disjInv_fireResetTimer (t : ℤ) (v : String) (s : ServerState)
    (h : DisjInv s) : DisjInv (fireResetTimer t v s) := by
  cases hpl : mget s.players v with
  | none => simpa [fireResetTimer, hpl] using h
  | some currentTarget =>
    simp only [fireResetTimer, hpl]
    intro id' hp'
    apply h id'
    have hv : hasKey s.players v = true := by simp [hasKey, hpl]
    rwa [hasKey_mset_present _ _ _ hv] at hp'

theorem disjInv_applyEvent (e : Event) (s : ServerState)
    (h : DisjInv s) : DisjInv (applyEvent e s) := by
  cases e with
  | connect id now => exact disjInv_onConnection id now s h
  | disconnect id => exact disjInv_onDisconnect id s h
  | update id data now => exact disjInv_onPlayerUpdate id data now s h
  | laserFire id data now => exact disjInv_onLaserFire id data now s h
  | sweepTick now => exact disjInv_sweep now s h
  | timerFire t id now =>
    simp only [applyEvent]
    split
    · exact disjInv_fireResetTimer t id s h
    · exact h
  | laserTick => exact h

theorem disjInv_run (evs : List Event) : DisjInv (run evs) :=
  foldl_preserves_mem _ (fun s => DisjInv s) evs
    (fun s e _ h => disjInv_applyEvent e s h) initState disjInv_init

/-- C3: in every reachable server state (after any sequence of connects,
updates, laser fires, disconnects, sweeps and timer firings), no connection
id is present in both the active `players` map and the `disconnectedPlayers`
map at the same time. -/
theorem registries_disjoint_reachable (evs : List Event) (id : String) :
    (hasKey (run evs).players id && hasKey (run evs).disconnectedPlayers id) = false := by
  cases hp : hasKey (run evs).players id with
  | false => simp
  | true => simp [disjInv_run evs id hp]

/-! ### Claim C10: `players` and `playerLastSeen` share exactly the same ids -/

/-- The invariant of the claim: the active map and the last-seen map contain
exactly the same set of ids. -/
def SameKeysInv (s : ServerState) : Prop :=
  ∀ id, hasKey s.players id = hasKey s.playerLastSeen id

theorem sameKeys_onConnection (id : String) (now : ℤ) (s : ServerState)
    (h : SameKeysInv s) : SameKeysInv (onConnection id now s) := by
  have hmain : ∀ id', hasKey (mset s.players id (freshPlayer id now)) id'
      = hasKey (mset s.playerLastSeen id now) id' → True := fun _ _ => trivial
  cases hdp : mget s.disconnectedPlayers id with
  | some prev =>
    simp only [onConnection, hdp]
    intro id'
    by_cases hi : id = id'
    · subst hi
      rw [hasKey_mset_self, hasKey_mset_self]
    · rw [hasKey_mset_ne _ _ _ _ hi, hasKey_mset_ne _ _ _ _ hi]
      exact h id'
  | none =>
    simp only [onConnection, hdp]
    intro id'
    by_cases hi : id = id'
    · subst hi
      rw [hasKey_mset_self, hasKey_mset_self]
    · rw [hasKey_mset_ne _ _ _ _ hi, hasKey_mset_ne _ _ _ _ hi]
      exact h id'

theorem sameKeys_applyHit (sh v : String) (now : ℤ) (s : ServerState)
    (h : SameKeysInv s) : SameKeysInv (applyHit sh v now s) := by
  intro id'
  rw [applyHit_players_keys, applyHit_lastSeen_eq]
  exact h id'

theorem sameKeys_onLaserFire (id : String) (data : LaserData) (now : ℤ) (s : ServerState)
    (h : SameKeysInv s) : SameKeysInv (onLaserFire id data now s) := by
  cases hsp : data.startPosition with
  | none => simpa [onLaserFire, hsp] using h
  | some sp =>
    cases hep : data.endPosition with
    | none => simpa [onLaserFire, hsp, hep] using h
    | some ep =>
      have hbuf : ∀ s1 : ServerState, SameKeysInv s1 →
          SameKeysInv { s1 with laserBuffer := bufferLaser id data s1.laserBuffer } :=
        fun s1 hs1 => hs1
      simp only [onLaserFire, hsp, hep]
      apply hbuf
      by_cases hl : data.likelyHit = true
      · rw [if_pos hl]
        cases hscan : scanClosest id sp ep s.players with
        | none => exact h
        | some pr =>
          obtain ⟨cid, d⟩ := pr
          exact sameKeys_applyHit id cid now s h
      · rw [if_neg hl]
        exact h

theorem sameKeys_onPlayerUpdate (id : String) (data : UpdateData) (now : ℤ) (s : ServerState)
    (h : SameKeysInv s) : SameKeysInv (onPlayerUpdate id data now s) := by
  cases hpl : mget s.players id with
  | none => simpa [onPlayerUpdate, hpl] using h
  | some player =>
    simp only [onPlayerUpdate, hpl]
    intro id'
    by_cases hi : id = id'
    · subst hi
      rw [hasKey_mset_self, hasKey_mset_self]
    · rw [hasKey_mset_ne _ _ _ _ hi, hasKey_mset_ne _ _ _ _ hi]
      exact h id'

theorem sameKeys_onDisconnect (id : String) (s : ServerState)
    (h : SameKeysInv s) : SameKeysInv (onDisconnect id s).1 := by
  cases hpl : mget s.players id with
  | none =>
    simp only [onDisconnect, hpl]
    intro id'
    by_cases hi : id = id'
    · subst hi
      rw [hasKey_mdelete_self, hasKey_mdelete_self]
    · rw [hasKey_mdelete_ne _ _ _ hi, hasKey_mdelete_ne _ _ _ hi]
      exact h id'
  | some playerData =>
    simp only [onDisconnect, hpl]
    intro id'
    by_cases hi : id = id'
    · subst hi
      rw [hasKey_mdelete_self, hasKey_mdelete_self]
    · rw [hasKey_mdelete_ne _ _ _ hi, hasKey_mdelete_ne _ _ _ hi]
      exact h id'

theorem sameKeys_sweep (now : ℤ) (s : ServerState)
    (h : SameKeysInv s) : SameKeysInv (sweep now s).1 := by
  have h1 : SameKeysInv { s with disconnectedPlayers := sweepDisconnected now s.disconnectedPlayers } := h
  unfold sweep sweepTimeouts
  refine foldl_preserves_mem _ (fun acc : ServerState × List Msg => SameKeysInv acc.1) _ ?_ _ h1
  intro acc e _ hacc
  by_cases hc : now - e.2 > PLAYER_TIMEOUT
  · simp only [if_pos hc]
    cases hpe : mget acc.1.players e.1 with
    | none =>
      simp only [hpe]
      intro id'
      by_cases hi : e.1 = id'
      · subst hi
        rw [hasKey_mdelete_self, hasKey_mdelete_self]
      · rw [hasKey_mdelete_ne _ _ _ hi, hasKey_mdelete_ne _ _ _ hi]
        exact hacc id'
    | some playerData =>
      simp only [hpe]
      intro id'
      by_cases hi : e.1 = id'
      · subst hi
        rw [hasKey_mdelete_self, hasKey_mdelete_self]
      · rw [hasKey_mdelete_ne _ _ _ hi, hasKey_mdelete_ne _ _ _ hi]
        exact hacc id'
  · simp only [if_neg hc]
    exact hacc

theorem sameKeys_fireResetTimer (t : ℤ) (v : String) (s : ServerState)
    (h : SameKeysInv s) : SameKeysInv (fireResetTimer t v s) := by
  cases hpl : mget s.players v with
  | none => simpa [fireResetTimer, hpl] using h
  | some currentTarget =>
    simp only [fireResetTimer, hpl]
    intro id'
    have hv : hasKey s.players v = true := by simp [hasKey, hpl]
    rw [hasKey_mset_present _ _ _ hv]
    exact h id'

/-- C10: every server operation — connect/reconnect, playerUpdate,
laserFire, disconnect, sweep, laser-buffer flush and pending `recentlyHit`
timer — preserves the invariant that `players` and `playerLastSeen` contain
exactly the same set of ids; the invariant holds at startup. -/
theorem sameKeys_preserved :
    (∀ (e : Event) (s : ServerState), SameKeysInv s → SameKeysInv (applyEvent e s)) ∧
    SameKeysInv initState := by
  constructor
  · intro e s h
    cases e with
    | connect id now => exact sameKeys_onConnection id now s h
    | disconnect id => exact sameKeys_onDisconnect id s h
    | update id data now => exact sameKeys_onPlayerUpdate id data now s h
    | laserFire id data now => exact sameKeys_onLaserFire id data now s h
    | sweepTick now => exact sameKeys_sweep now s h
    | timerFire t id now =>
      simp only [applyEvent]
      split
      · exact sameKeys_fireResetTimer t id s h
      · exact h
    | laserTick => exact h
  · intro id
    rfl

/-- Witness for C10: preservation applied at a concrete connect event on
the startup state. -/
theorem sameKeys_preserved_witness :
    SameKeysInv (applyEvent (Event.connect "A" 0) initState) :=
  sameKeys_preserved.1 (Event.connect "A" 0) initState sameKeys_preserved.2

/-! ### Claim C4: hit scan eligibility, threshold and minimality -/

/-- A player entry the scan considers: not the shooter, positive health
(`server.mjs` line 206 skips everyone else). -/
def Considered (shooterId : String) (e : String × Player) : Prop :=
  e.1 ≠ shooterId ∧ 0 < e.2.health

theorem not_considered_of_skip (sh : String) (e : String × Player)
    (h : e.1 = sh ∨ e.2.health ≤ 0) : ¬ Considered sh e := by
  rintro ⟨h1, h2⟩
  rcases h with h | h
  · exact h1 h
  · exact absurd h2 (not_lt.mpr h)

theorem considered_of_not_skip (sh : String) (e : String × Player)
    (h : ¬ (e.1 = sh ∨ e.2.health ≤ 0)) : Considered sh e := by
  push_neg at h
  exact ⟨h.1, h.2⟩

/-- If the scan fold ends with no candidate, it started with none and every
considered entry of the list is at squared distance at least `100`. -/
theorem scan_foldl_none (sh : String) (sp ep : Vec3) :
    ∀ (ps : List (String × Player)) (acc : Option (String × ℚ)),
    ps.foldl (scanStep sh sp ep) acc = none →
    acc = none ∧ ∀ e ∈ ps, Considered sh e → ¬ (pointLineDistSq e.2.position sp ep < 100) := by
  intro ps
  induction ps with
  | nil =>
    intro acc h
    exact ⟨h, by simp⟩
  | cons e rest ih =>
    intro acc h
    rw [List.foldl_cons] at h
    obtain ⟨hstep, hrest⟩ := ih _ h
    by_cases hskip : e.1 = sh ∨ e.2.health ≤ 0
    · simp only [scanStep, if_pos hskip] at hstep
      refine ⟨hstep, ?_⟩
      intro x hx hcons
      rcases List.mem_cons.mp hx with rfl | hx'
      · exact absurd hcons (not_considered_of_skip sh x hskip)
      · exact hrest x hx' hcons
    · cases acc with
      | none =>
        simp only [scanStep, if_neg hskip] at hstep
        by_cases hd2 : pointLineDistSq e.2.position sp ep < 100
        · rw [if_pos hd2] at hstep
          exact absurd hstep (by simp)
        · refine ⟨rfl, ?_⟩
          intro x hx hcons
          rcases List.mem_cons.mp hx with rfl | hx'
          · exact hd2
          · exact hrest x hx' hcons
      | some pr =>
        obtain ⟨cid, m⟩ := pr
        simp only [scanStep, if_neg hskip] at hstep
        by_cases hd2 : pointLineDistSq e.2.position sp ep < 100
            ∧ pointLineDistSq e.2.position sp ep < m
        · rw [if_pos hd2] at hstep
          exact absurd hstep (by simp)
        · rw [if_neg hd2] at hstep
          exact absurd hstep (by simp)

/-- If the scan fold produces a candidate then (given every stored running
minimum is below the threshold) the result is below the threshold, is a
lower bound on every considered squared distance in the list and on the
initial accumulator, and comes either from the accumulator or from a
considered entry of the list. -/
theorem scan_foldl_some (sh : String) (sp ep : Vec3) :
    ∀ (ps : List (String × Player)) (acc : Option (String × ℚ)) (v : String) (d : ℚ),
    ps.foldl (scanStep sh sp ep) acc = some (v, d) →
    (∀ w m, acc = some (w, m) → m < 100) →
    d < 100 ∧
    (∀ e ∈ ps, Considered sh e → d ≤ pointLineDistSq e.2.position sp ep) ∧
    (∀ w m, acc = some (w, m) → d ≤ m) ∧
    (acc = some (v, d) ∨ ∃ p, (v, p) ∈ ps ∧ Considered sh (v, p) ∧
        d = pointLineDistSq p.position sp ep) := by
  intro ps
  induction ps with
  | nil =>
    intro acc v d h hacc
    rw [List.foldl_nil] at h
    refine ⟨hacc v d h, by simp, ?_, Or.inl h⟩
    intro w m hm
    rw [h] at hm
    injection hm with hm'
    injection hm' with h1 h2
    exact le_of_eq h2
  | cons e rest ih =>
    intro acc v d h hacc
    rw [List.foldl_cons] at h
    by_cases hskip : e.1 = sh ∨ e.2.health ≤ 0
    · have hsame : scanStep sh sp ep acc e = acc := by
        simp only [scanStep, if_pos hskip]
      rw [hsame] at h
      obtain ⟨h100, hmin, haccb, hprov⟩ := ih _ _ _ h hacc
      refine ⟨h100, ?_, haccb, ?_⟩
      · intro x hx hcons
        rcases List.mem_cons.mp hx with rfl | hx'
        · exact absurd hcons (not_considered_of_skip sh x hskip)
        · exact hmin x hx' hcons
      · rcases hprov with hp | ⟨p, hp1, hp2, hp3⟩
        · exact Or.inl hp
        · exact Or.inr ⟨p, List.mem_cons_of_mem _ hp1, hp2, hp3⟩
    · have hcons : Considered sh e := considered_of_not_skip sh e hskip
      cases acc with
      | none =>
        by_cases hd2 : pointLineDistSq e.2.position sp ep < 100
        · have hstep : scanStep sh sp ep none e
              = some (e.1, pointLineDistSq e.2.position sp ep) := by
            simp only [scanStep, if_neg hskip, if_pos hd2]
          rw [hstep] at h
          have hacc' : ∀ w m, (some (e.1, pointLineDistSq e.2.position sp ep)
              : Option (String × ℚ)) = some (w, m) → m < 100 := by
            intro w m hm
            injection hm with hm'
            injection hm' with h1 h2
            rw [← h2]
            exact hd2
          obtain ⟨h100, hmin, haccb, hprov⟩ := ih _ _ _ h hacc'
          refine ⟨h100, ?_, by simp, ?_⟩
          · intro x hx hxcons
            rcases List.mem_cons.mp hx with rfl | hx'
            · exact haccb x.1 _ rfl
            · exact hmin x hx' hxcons
          · rcases hprov with hp | ⟨p, hp1, hp2, hp3⟩
            · injection hp with hp'
              injection hp' with h1 h2
              refine Or.inr ⟨e.2, ?_, ?_, h2.symm⟩
              · rw [← h1]
                exact List.mem_cons_self _ _
              · rw [← h1]
                exact hcons
            · exact Or.inr ⟨p, List.mem_cons_of_mem _ hp1, hp2, hp3⟩
        · have hstep : scanStep sh sp ep none e = none := by
            simp only [scanStep, if_neg hskip, if_neg hd2]
          rw [hstep] at h
          obtain ⟨h100, hmin, haccb, hprov⟩ := ih _ _ _ h (by intro w m hm; cases hm)
          refine ⟨h100, ?_, by simp, ?_⟩
          · intro x hx hxcons
            rcases List.mem_cons.mp hx with rfl | hx'
            · exact le_of_lt (lt_of_lt_of_le h100 (not_lt.mp hd2))
            · exact hmin x hx' hxcons
          · rcases hprov with hp | ⟨p, hp1, hp2, hp3⟩
            · cases hp
            · exact Or.inr ⟨p, List.mem_cons_of_mem _ hp1, hp2, hp3⟩
      | some pr =>
        obtain ⟨cid, m0⟩ := pr
        have hm0 : m0 < 100 := hacc cid m0 rfl
        by_cases hd2 : pointLineDistSq e.2.position sp ep < 100
            ∧ pointLineDistSq e.2.position sp ep < m0
        · have hstep : scanStep sh sp ep (some (cid, m0)) e
              = some (e.1, pointLineDistSq e.2.position sp ep) := by
            simp only [scanStep, if_neg hskip, if_pos hd2]
          rw [hstep] at h
          have hacc' : ∀ w m, (some (e.1, pointLineDistSq e.2.position sp ep)
              : Option (String × ℚ)) = some (w, m) → m < 100 := by
            intro w m hm
            injection hm with hm'
            injection hm' with h1 h2
            rw [← h2]
            exact hd2.1
          obtain ⟨h100, hmin, haccb, hprov⟩ := ih _ _ _ h hacc'
          have hde : d ≤ pointLineDistSq e.2.position sp ep := haccb e.1 _ rfl
          refine ⟨h100, ?_, ?_, ?_⟩
          · intro x hx hxcons
            rcases List.mem_cons.mp hx with rfl | hx'
            · exact hde
            · exact hmin x hx' hxcons
          · intro w m hm
            injection hm with hm'
            injection hm' with h1 h2
            rw [← h2]
            exact le_of_lt (lt_of_le_of_lt hde hd2.2)
          · rcases hprov with hp | ⟨p, hp1, hp2, hp3⟩
            · injection hp with hp'
              injection hp' with h1 h2
              refine Or.inr ⟨e.2, ?_, ?_, h2.symm⟩
              · rw [← h1]
                exact List.mem_cons_self _ _
              · rw [← h1]
                exact hcons
            · exact Or.inr ⟨p, List.mem_cons_of_mem _ hp1, hp2, hp3⟩
        · have hstep : scanStep sh sp ep (some (cid, m0)) e = some (cid, m0) := by
            simp only [scanStep, if_neg hskip, if_neg hd2]
          rw [hstep] at h
          obtain ⟨h100, hmin, haccb, hprov⟩ := ih _ _ _ h hacc
          have hdm0 : d ≤ m0 := haccb cid m0 rfl
          refine ⟨h100, ?_, ?_, ?_⟩
          · intro x hx hxcons
            rcases List.mem_cons.mp hx with rfl | hx'
            · by_cases hx100 : pointLineDistSq x.2.position sp ep < 100
              · have hxm0 : ¬ pointLineDistSq x.2.position sp ep < m0 := fun hlt =>
                  hd2 ⟨hx100, hlt⟩
                exact le_trans hdm0 (not_lt.mp hxm0)
              · exact le_of_lt (lt_of_lt_of_le h100 (not_lt.mp hx100))
            · exact hmin x hx' hxcons
          · intro w m hm
            injection hm with hm'
            injection hm' with h1 h2
            rw [← h2]
            exact hdm0
          · rcases hprov with hp | ⟨p, hp1, hp2, hp3⟩
            · exact Or.inl hp
            · exact Or.inr ⟨p, List.mem_cons_of_mem _ hp1, hp2, hp3⟩

/-- Hitting never changes any registered player other than the victim and
the shooter. -/
theorem applyHit_mget_other (sh v : String) (now : ℤ) (s : ServerState) (w : String)
    (hw1 : w ≠ v) (hw2 : w ≠ sh) :
    mget (applyHit sh v now s).players w = mget s.players w := by
  cases hvt : mget s.players v with
  | none => simp [applyHit, hvt]
  | some target =>
    by_cases hc : 0 < target.health ∧ max 0 (target.health - 5) = 0
    · cases hsh : mget s.players sh with
      | none =>
        simp only [applyHit, hvt, hsh, if_pos hc]
        rw [mget_mset_ne _ _ _ _ (Ne.symm hw1)]
      | some shooter =>
        simp only [applyHit, hvt, hsh, if_pos hc]
        rw [mget_mset_ne _ _ _ _ (Ne.symm hw1), mget_mset_ne _ _ _ _ (Ne.symm hw2)]
    · simp only [applyHit, hvt, if_neg hc]
      rw [mget_mset_ne _ _ _ _ (Ne.symm hw1)]

/-- With a valid `likelyHit` event the handler's player-map effect is
exactly the scan result applied through the damage block. -/
theorem onLaserFire_players_eq (id : String) (sp ep : Vec3) (now : ℤ) (s : ServerState) :
    (onLaserFire id ⟨some sp, some ep, true⟩ now s).players
      = (match scanClosest id sp ep s.players with
         | some (v, _) => applyHit id v now s
         | none => s).players := rfl

/-- C4: for a `laserFire` event with `likelyHit = true` and valid start/end
positions, the scan considers exactly the active players other than the
shooter with positive health; at most one player is damaged, namely one at
minimal point-to-segment distance among the considered players, and only if
that distance is strictly below 10 (a player at distance exactly 10 is not
hit); if no considered player is below the threshold, no player's state
changes. -/
theorem onLaserFire_hit_selection (id : String) (sp ep : Vec3) (now : ℤ) (s : ServerState) :
    (scanClosest id sp ep s.players = none →
      (onLaserFire id ⟨some sp, some ep, true⟩ now s).players = s.players) ∧
    (∀ v d, scanClosest id sp ep s.players = some (v, d) →
      (∃ p, (v, p) ∈ s.players ∧ v ≠ id ∧ 0 < p.health ∧
        d = pointLineDistSq p.position sp ep ∧
        pointLineDistance p.position sp ep < 10 ∧
        ∀ e ∈ s.players, e.1 ≠ id → 0 < e.2.health →
          pointLineDistance p.position sp ep ≤ pointLineDistance e.2.position sp ep) ∧
      (onLaserFire id ⟨some sp, some ep, true⟩ now s).players = (applyHit id v now s).players ∧
      ∀ w, w ≠ v → w ≠ id →
        mget (onLaserFire id ⟨some sp, some ep, true⟩ now s).players w = mget s.players w) := by
  constructor
  · intro hscan
    rw [onLaserFire_players_eq, hscan]
  · intro v d hscan
    obtain ⟨h100, hmin, _, hprov⟩ :=
      scan_foldl_some id sp ep s.players none v d hscan (by intro w m hm; cases hm)
    rcases hprov with hp | ⟨p, hp1, hp2, hp3⟩
    · cases hp
    · refine ⟨⟨p, hp1, hp2.1, hp2.2, hp3, ?_, ?_⟩, ?_, ?_⟩
      · rw [pointLineDistance_lt_ten_iff, ← hp3]
        exact h100
      · intro e he h1 h2
        apply pointLineDistance_le_of_sq_le
        rw [← hp3]
        exact hmin e he ⟨h1, h2⟩
      · rw [onLaserFire_players_eq, hscan]
      · intro w hw1 hw2
        rw [onLaserFire_players_eq, hscan]
        exact applyHit_mget_other id v now s w hw1 hw2

/-- Witness for C4: shooter A fires a segment through B's position; the
scan selects B at squared distance 0 and the handler's effect on the player
map is exactly the damage block applied to B. -/
theorem onLaserFire_hit_selection_witness :
    (onLaserFire "A" ⟨some ⟨0, 0, 5⟩, some ⟨0, 0, -5⟩, true⟩ 1000 stateAB).players
      = (applyHit "A" "B" 1000 stateAB).players :=
  ((onLaserFire_hit_selection "A" ⟨0, 0, 5⟩ ⟨0, 0, -5⟩ 1000 stateAB).2 "B" 0
    (by norm_num +decide [scanClosest, scanStep, pointLineDistSq, stateAB, shooterA,
      victimB, initState, List.foldl])).2.1

/-! ### Claim C7: what `onDisconnect` stores and when the record is purged -/

theorem mget_filter_of_true (l : List (String × α)) (P : String × α → Bool) (k : String) (v : α)
    (h : mget l k = some v) (hP : P (k, v) = true) : mget (l.filter P) k = some v := by
  induction l with
  | nil => simp [mget] at h
  | cons e rest ih =>
    obtain ⟨k₀, v₀⟩ := e
    by_cases h₀ : k₀ = k
    · subst h₀
      rw [mget, if_pos rfl] at h
      injection h with hv
      subst hv
      rw [List.filter_cons, hP]
      simp [mget]
    · rw [mget, if_neg h₀] at h
      rw [List.filter_cons]
      cases hPe : P (k₀, v₀) with
      | true =>
        simp only [if_pos rfl, if_true]
        rw [mget, if_neg h₀]
        exact ih h
      | false =>
        simp only [Bool.false_eq_true, if_false]
        exact ih h

theorem mget_filter_none (l : List (String × α)) (P : String × α → Bool) (k : String)
    (hall : ∀ v, (k, v) ∈ l → P (k, v) = false) : mget (l.filter P) k = none := by
  cases hn : mget (l.filter P) k with
  | none => rfl
  | some v =>
    have hmem := mget_mem _ _ _ hn
    have hmeml := List.mem_of_mem_filter hmem
    have hPtrue := List.of_mem_filter hmem
    rw [hall v hmeml] at hPtrue
    simp at hPtrue

theorem ne_key_of_hasKey_false (l : List (String × α)) (k : String)
    (h : hasKey l k = false) : ∀ e ∈ l, e.1 ≠ k := by
  intro e he hk
  have hmem : (k, e.2) ∈ l := by
    rw [← hk]
    exact he
  rw [hasKey_of_mem l k e.2 hmem] at h
  simp at h

/-- Counterexample to C7: a player who connected (last updated) at time 0
and disconnects at wall-clock time 5000 is stored with timestamp 0 — the
handler takes no clock input at all, so the record is not stamped with the
disconnection time — and the sweep at time 60001 purges it even though
fewer than 60 s (60001 < 5000 + 60000) have elapsed since the disconnect. -/
theorem onDisconnect_no_disconnect_stamp :
    (mget ((onDisconnect "d" (run [Event.connect "d" 0])).1).disconnectedPlayers "d").map
        Player.timestamp = some 0 ∧
    mget ((sweep 60001 (onDisconnect "d" (run [Event.connect "d" 0])).1).1).disconnectedPlayers
        "d" = none ∧
    (60001 : ℤ) < 5000 + DISCONNECTED_PLAYER_TIMEOUT := by
  refine ⟨?_, ?_, ?_⟩ <;> decide

/-- C7 as amended: `onDisconnect` moves the active record into the
disconnected registry with its stored `timestamp` (the last-update time)
unchanged, removes it from the active and last-seen maps and emits
`playerLeft {id}`; a sweep purges the stored record exactly when more than
60 s have elapsed since that stored last-update timestamp (not since the
disconnect). -/
theorem onDisconnect_moves_record :
    (∀ (id : String) (s : ServerState) (pd : Player), mget s.players id = some pd →
      (onDisconnect id s).1.disconnectedPlayers = mset s.disconnectedPlayers id pd ∧
      mget (onDisconnect id s).1.players id = none ∧
      mget (onDisconnect id s).1.playerLastSeen id = none ∧
      (onDisconnect id s).2 = [Msg.playerLeft id]) ∧
    (∀ (now : ℤ) (s : ServerState) (id : String) (p : Player),
      mget s.disconnectedPlayers id = some p →
      (∀ q, (id, q) ∈ s.disconnectedPlayers → q = p) →
      hasKey s.playerLastSeen id = false →
      mget (sweep now s).1.disconnectedPlayers id
        = if now - p.timestamp > DISCONNECTED_PLAYER_TIMEOUT then none else some p) := by
  constructor
  · intro id s pd h
    simp [onDisconnect, h, mget_mdelete_self]
  · intro now s id p hp hall hls
    have hne := ne_key_of_hasKey_false _ _ hls
    have hfilter : mget (sweepDisconnected now s.disconnectedPlayers) id
        = if now - p.timestamp > DISCONNECTED_PLAYER_TIMEOUT then none else some p := by
      by_cases hc : now - p.timestamp > DISCONNECTED_PLAYER_TIMEOUT
      · rw [if_pos hc]
        apply mget_filter_none
        intro v hv
        rw [hall v hv]
        simp only [decide_eq_false_iff_not, not_not]
        exact hc
      · rw [if_neg hc]
        apply mget_filter_of_true _ _ _ _ hp
        simp only [decide_eq_true_eq]
        exact hc
    have hfold : mget (sweep now s).1.disconnectedPlayers id
        = mget (sweepDisconnected now s.disconnectedPlayers) id := by
      unfold sweep sweepTimeouts
      refine foldl_preserves_mem _
        (fun acc : ServerState × List Msg =>
          mget acc.1.disconnectedPlayers id
            = mget (sweepDisconnected now s.disconnectedPlayers) id) _ ?_ _ rfl
      intro acc e he hacc
      by_cases hc : now - e.2 > PLAYER_TIMEOUT
      · simp only [if_pos hc]
        cases hpe : mget acc.1.players e.1 with
        | none =>
          simp only [hpe]
          exact hacc
        | some playerData =>
          simp only [hpe]
          rw [mget_mset_ne _ _ _ _ (hne e he)]
          exact hacc
      · simp only [if_neg hc]
        exact hacc
    rw [hfold, hfilter]

/-- Witness for C7 (amended): the concrete moved record and a concrete purge
60.001 s after a last update at time 0. -/
theorem onDisconnect_moves_record_witness :
    (onDisconnect "d" (run [Event.connect "d" 0])).1.disconnectedPlayers
        = mset (run [Event.connect "d" 0]).disconnectedPlayers "d" (freshPlayer "d" 0) ∧
    mget (sweep 60001 { initState with
        disconnectedPlayers := [("d", freshPlayer "d" 0)] }).1.disconnectedPlayers "d"
      = if (60001 : ℤ) - (freshPlayer "d" 0).timestamp > DISCONNECTED_PLAYER_TIMEOUT
          then none else some (freshPlayer "d" 0) := by
  constructor
  · exact (onDisconnect_moves_record.1 "d" (run [Event.connect "d" 0]) (freshPlayer "d" 0)
      (by decide)).1
  · exact onDisconnect_moves_record.2 60001
      { initState with disconnectedPlayers := [("d", freshPlayer "d" 0)] } "d"
      (freshPlayer "d" 0) (by decide)
      (by
        intro q hq
        have h1 := List.mem_singleton.mp hq
        injection h1 with h1a h1b)
      (by decide)

/-! ### Claim C8: `recentlyHit` reset timers -/

/-- The laser segment used in the double-hit scenario: it passes through
B's default position at the origin. -/
def hitSegment : LaserData := ⟨some ⟨0, 0, 5⟩, some ⟨0, 0, -5⟩, true⟩

/-- A reaches B with laser fire at times 0 and 300; the reset `setTimeout`
scheduled by the first hit fires at time 500. -/
def doubleHitTrace : List Event :=
  [.connect "A" 0, .connect "B" 0,
   .laserFire "A" hitSegment 0,
   .laserFire "A" hitSegment 300,
   .timerFire 500 "B" 500]

/-- Counterexample to C8: after hits at times 0 and 300, the first hit's
reset timer (scheduled for time 500) is still pending — it was not
superseded — and when it fires at time 500 it sets B's `recentlyHit` back
to `false`, even though only 200 ms < 500 ms have elapsed since the most
recent hit (the claim demands the flag stay `true` until time 800). -/
theorem recentlyHit_not_superseded_counterexample :
    (mget (run doubleHitTrace).players "B").map Player.recentlyHit = some false ∧
    (500 : ℤ) < 300 + 500 := by
  constructor
  · norm_num +decide [doubleHitTrace, hitSegment, run, applyEvent, onConnection, initState,
      freshPlayer, mget, mset, onLaserFire, scanClosest, scanStep, pointLineDistSq, applyHit,
      bufferLaser, fireResetTimer, List.foldl]
  · decide

/-- C8 as amended: reset timers are stacked, not superseded — every hit
appends a fresh 500 ms reset timer while leaving all pending ones in place,
and sets the victim's `recentlyHit` to `true`; any pending timer whose fire
time has been reached then resets the victim's flag to `false`, even when a
later hit is more recent. -/
theorem recentlyHit_timer_stacks :
    (∀ (sh v : String) (now : ℤ) (s : ServerState) (target : Player),
      mget s.players v = some target →
      (applyHit sh v now s).pendingResets = s.pendingResets ++ [(now + 500, v)] ∧
      (mget (applyHit sh v now s).players v).map Player.recentlyHit = some true) ∧
    (∀ (t : ℤ) (v : String) (now : ℤ) (s : ServerState),
      (t, v) ∈ s.pendingResets → t ≤ now →
      (mget (applyEvent (Event.timerFire t v now) s).players v).map Player.recentlyHit
        = (mget s.players v).map fun _ => false) := by
  constructor
  · intro sh v now s target hvt
    refine ⟨?_, ?_⟩
    · simp [applyHit, hvt]
    · simp only [applyHit, hvt]
      rw [mget_mset_self]
      rfl
  · intro t v now s hmem hle
    simp only [applyEvent, if_pos (And.intro hmem hle)]
    cases hpl : mget s.players v with
    | none => simp [fireResetTimer, hpl]
    | some currentTarget => simp [fireResetTimer, hpl, mget_mset_self]

/-- Witness for C8 (amended): a concrete hit appends its reset timer to the
pending list and flags the victim. -/
theorem recentlyHit_timer_stacks_witness :
    (applyHit "A" "B" 1000 stateAB).pendingResets
        = stateAB.pendingResets ++ [(1500, "B")] ∧
    (mget (applyHit "A" "B" 1000 stateAB).players "B").map Player.recentlyHit = some true :=
  recentlyHit_timer_stacks.1 "A" "B" 1000 stateAB victimB (by decide)

end CrusaderX
